import Mathlib

/-!
# Eudex phonetic hashing (`eudex/eudex.go`)

A shallow embedding of the Go package `eudex`: the phone tables, the hash
builder `Eudex`, and the distance functions on `EudexHash`.

Conventions of the embedding.

* A Go `string` is a sequence of bytes, `List (Fin 256)`.
* `uint64` / `uint32` values are natural numbers; every operation that can
  wrap in Go is written with an explicit reduction modulo `2 ^ 64` or
  `2 ^ 32`.
* Indexing a string or a table out of range panics in Go; here such an access
  yields `none`.
* The `for` loop of `Eudex` is run with an explicit iteration budget; running
  out of budget while the loop condition still holds yields `none`.
-/

namespace eudex

/-! ## Data model -/

/-- A Go `byte`. -/
abbrev Byte := Fin 256

/-- A Go `string`: an immutable sequence of bytes. -/
abbrev GoString := List Byte

/-- Bytes of an ASCII string literal (every character of the literal is
expected to be below 128, so that its UTF-8 encoding is one byte). -/
def ascii (s : String) : GoString :=
  s.toList.map (fun ch => (Fin.ofNat ch.toNat : Fin 256))

/-- Source: `const LETTERS uint64 = 26` -/
def LETTERS : Nat := 26

/-- Source: `var A uint64 = uint64('a')` -/
def A : Nat := 97

/-- Source: `var Z uint64 = uint64('z')` -/
def Z : Nat := 122

/-- Source: `func charCode(s string, idx int) uint64`: `uint64(s[idx])`. -/
def charCode (s : GoString) (idx : Nat) : Option Nat :=
  (s[idx]?).map Fin.val

/-- Source: `var PHONES = []uint8{...}`, indexed by `letter - 'a'`. -/
def PHONES : List Nat :=
  [ 0,          -- a
    0b01001000, -- b
    0b00001100, -- c
    0b00011000, -- d
    0,          -- e
    0b01000100, -- f
    0b00001000, -- g
    0b00000100, -- h
    1,          -- i
    0b00000101, -- j
    0b00001001, -- k
    0b10100000, -- l
    0b00000010, -- m
    0b00010010, -- n
    0,          -- o
    0b01001001, -- p
    0b10101000, -- q
    0b10100001, -- r
    0b00010100, -- s
    0b00011101, -- t
    1,          -- u
    0b01000101, -- v
    0b00000000, -- w
    0b10000100, -- x
    1,          -- y
    0b10010100  -- z
  ]

/-- Source: `var PHONES_C1 = []uint8{...}`, documented as starting at `0xDF`. -/
def PHONES_C1 : List Nat :=
  [ PHONES.getD (115 - 97) 0 ^^^ 1, -- ß
    0,                              -- à
    0,                              -- á
    0,                              -- â
    0,                              -- ã
    0,                              -- ä
    1,                              -- å
    0,                              -- æ
    PHONES.getD (122 - 97) 0 ^^^ 1, -- ç
    1,                              -- è
    1,                              -- é
    1,                              -- ê
    1,                              -- ë
    1,                              -- ì
    1,                              -- í
    1,                              -- î
    1,                              -- ï
    0b00010101,                     -- ð
    0b00010111,                     -- ñ
    0,                              -- ò
    0,                              -- ó
    0,                              -- ô
    0,                              -- õ
    1,                              -- ö
    255,                            -- ÷
    1,                              -- ø
    1,                              -- ù
    1,                              -- ú
    1,                              -- û
    1,                              -- ü
    1,                              -- ý
    0b00010101,                     -- þ
    1                               -- ÿ
  ]

/-- Source: `var INJECTIVE_PHONES = []uint8{...}`, indexed by `letter - 'a'`. -/
def INJECTIVE_PHONES : List Nat :=
  [ 0b10000100, -- a*
    0b00100100, -- b
    0b00000110, -- c
    0b00001100, -- d
    0b11011000, -- e*
    0b00100010, -- f
    0b00000100, -- g
    0b00000010, -- h
    0b11111000, -- i*
    0b00000011, -- j
    0b00000101, -- k
    0b01010000, -- l
    0b00000001, -- m
    0b00001001, -- n
    0b10010100, -- o*
    0b00100101, -- p
    0b01010100, -- q
    0b01010001, -- r
    0b00001010, -- s
    0b00001110, -- t
    0b11100000, -- u*
    0b00100011, -- v
    0b00000000, -- w
    0b01000010, -- x
    0b11100100, -- y*
    0b01001010  -- z
  ]

/-- Source: `var INJECTIVE_PHONES_C1 = []uint8{...}`, documented as starting at C1. -/
def INJECTIVE_PHONES_C1 : List Nat :=
  [ INJECTIVE_PHONES.getD (115 - 97) 0 ^^^ 1, -- ß
    INJECTIVE_PHONES.getD (97 - 97) 0 ^^^ 1,  -- à
    INJECTIVE_PHONES.getD (97 - 97) 0 ^^^ 1,  -- á
    0b10000000,                               -- â
    0b10000110,                               -- ã
    0b10100110,                               -- ä
    0b11000010,                               -- å
    0b10100111,                               -- æ
    0b01010100,                               -- ç
    INJECTIVE_PHONES.getD (101 - 97) 0 ^^^ 1, -- è
    INJECTIVE_PHONES.getD (101 - 97) 0 ^^^ 1, -- é
    INJECTIVE_PHONES.getD (101 - 97) 0 ^^^ 1, -- ê
    0b11000110,                               -- ë
    INJECTIVE_PHONES.getD (105 - 97) 0 ^^^ 1, -- ì
    INJECTIVE_PHONES.getD (105 - 97) 0 ^^^ 1, -- í
    INJECTIVE_PHONES.getD (105 - 97) 0 ^^^ 1, -- î
    INJECTIVE_PHONES.getD (105 - 97) 0 ^^^ 1, -- ï
    0b00001011,                               -- ð
    0b00001011,                               -- ñ
    INJECTIVE_PHONES.getD (111 - 97) 0 ^^^ 1, -- ò
    INJECTIVE_PHONES.getD (111 - 97) 0 ^^^ 1, -- ó
    INJECTIVE_PHONES.getD (111 - 97) 0 ^^^ 1, -- ô
    INJECTIVE_PHONES.getD (111 - 97) 0 ^^^ 1, -- õ
    0b11011100,                               -- ö
    255,                                      -- ÷
    0b11011101,                               -- ø
    INJECTIVE_PHONES.getD (117 - 97) 0 ^^^ 1, -- ù
    INJECTIVE_PHONES.getD (117 - 97) 0 ^^^ 1, -- ú
    INJECTIVE_PHONES.getD (117 - 97) 0 ^^^ 1, -- û
    INJECTIVE_PHONES.getD (121 - 97) 0 ^^^ 1, -- ü
    INJECTIVE_PHONES.getD (121 - 97) 0 ^^^ 1, -- ý
    0b00001011,                               -- þ
    INJECTIVE_PHONES.getD (121 - 97) 0 ^^^ 1  -- ÿ
  ]

/-- Source: `type EudexHash struct { h uint64 }` -/
structure EudexHash where
  h : Nat
  deriving DecidableEq, Repr

/-! ## The hash builder -/

/-- Subtraction on `uint64`: the difference taken modulo `2 ^ 64`. -/
def subU64 (x y : Nat) : Nat :=
  (((x : Int) - (y : Int)) % ((2 ^ 64 : Nat) : Int)).toNat

/-- The expression `(charCode | 32 - A) & 0xFF` on a `uint64` character code
`c`. In Go `|` and `-` have the same precedence and associate to the left, so
this is `((c | 32) - A) & 0xFF`, the subtraction wrapping modulo `2 ^ 64`
(`subU64`). -/
def foldEntry (c : Nat) : Nat :=
  (subU64 (c ||| 32) A) &&& 0xFF

/-- Lines 227-234 of `Eudex`: the first byte, from the entry of the first
character. `firstByte` is declared with value 0 and stays 0 when neither
branch assigns it. -/
def firstByteOf (entry : Nat) : Option Nat :=
  if entry < LETTERS then
    INJECTIVE_PHONES[entry]?
  else if 0xDF ≤ entry ∧ entry < 0xFF then
    INJECTIVE_PHONES_C1[entry - 0xDF]?
  else
    some 0

/-- Lines 252-256 of `Eudex`: the deduplication test and the append of the
phone `x` to the accumulator `res`, with the counter `n`. -/
def retain (res n x : Nat) : Nat × Nat :=
  if (res &&& 0xFE) ≠ (x &&& 0xFE) then
    (((res <<< 8) % 2 ^ 64) ||| x, n + 1)
  else
    (res, n)

/-- The loop `for n < 8 && b < len(sequence) { ... }` of `Eudex`, started in
the state `(res, n, b)` and allowed at most `fuel` iterations. The result is
the value of `res` when the loop condition fails. -/
def EudexLoop (sequence : GoString) : Nat → Nat → Nat → Nat → Option Nat
  | 0, res, n, b =>
    if n < 8 ∧ b < sequence.length then none else some res
  | fuel + 1, res, n, b =>
    if n < 8 ∧ b < sequence.length then do
      let c ← charCode sequence b
      let entry := foldEntry c
      if entry ≤ Z then
        if entry < LETTERS then do
          let x ← PHONES[entry]?
          EudexLoop sequence fuel (retain res n x).1 (retain res n x).2 (b + 1)
        else if 0xDF ≤ entry ∧ entry < 0xFF then do
          let x ← PHONES_C1[entry - 0xDF]?
          EudexLoop sequence fuel (retain res n x).1 (retain res n x).2 (b + 1)
        else
          EudexLoop sequence fuel res n (b + 1)
      else
        EudexLoop sequence fuel res n (b + 1)
    else
      some res

/-- Source: `func Eudex(sequence string) EudexHash`, the loop being allowed at most
`fuel` iterations. -/
def EudexFuel (fuel : Nat) (sequence : GoString) : Option EudexHash :=
  if sequence.length = 0 then
    some ⟨0⟩
  else do
    let c ← charCode sequence 0
    let firstByte ← firstByteOf (foldEntry c)
    let res ← EudexLoop sequence fuel 0 0 1
    some ⟨res ||| ((firstByte <<< 56) % 2 ^ 64)⟩

/-- Source: `func Eudex(sequence string) EudexHash`. Every iteration of the loop
advances `b`, so `len(sequence)` iterations are always enough. -/
def Eudex (sequence : GoString) : Option EudexHash :=
  EudexFuel sequence.length sequence

/-! ## Distances -/

/-- Source: `func (e EudexHash) Sub(other EudexHash) uint64` -/
def EudexHash.Sub (e other : EudexHash) : Nat :=
  e.h ^^^ other.h

/-- Go's `math/bits.OnesCount8`: the number of one bits of a `uint8`. -/
def OnesCount8 (x : Nat) : Nat :=
  ((List.range 8).filter (fun i => x.testBit i)).length

/-- Go's `math/bits.OnesCount64`: the number of one bits of a `uint64`. -/
def OnesCount64 (x : Nat) : Nat :=
  ((List.range 64).filter (fun i => x.testBit i)).length

/-- The conversion `uint8(d)` of a `uint64`. -/
def toU8 (d : Nat) : Nat := d % 2 ^ 8

/-- The conversion `uint32(k)`. -/
def toU32 (k : Nat) : Nat := k % 2 ^ 32

/-- Addition on `uint32`. -/
def addU32 (x y : Nat) : Nat := (x + y) % 2 ^ 32

/-- Multiplication on `uint32`. -/
def mulU32 (x y : Nat) : Nat := (x * y) % 2 ^ 32

/-- Source: `func (e EudexHash) Dist(other EudexHash) uint32` -/
def EudexHash.Dist (e other : EudexHash) : Nat :=
  let d := e.Sub other
  addU32 (addU32 (addU32 (addU32 (addU32 (addU32 (addU32
    (toU32 (OnesCount8 (toU8 d)))
    (mulU32 (toU32 (OnesCount8 (toU8 (d >>> 8)))) 2))
    (mulU32 (toU32 (OnesCount8 (toU8 (d >>> 16)))) 3))
    (mulU32 (toU32 (OnesCount8 (toU8 (d >>> 24)))) 5))
    (mulU32 (toU32 (OnesCount8 (toU8 (d >>> 32)))) 8))
    (mulU32 (toU32 (OnesCount8 (toU8 (d >>> 40)))) 13))
    (mulU32 (toU32 (OnesCount8 (toU8 (d >>> 48)))) 21))
    (mulU32 (toU32 (OnesCount8 (toU8 (d >>> 56)))) 34)

/-- Source: `func (e EudexHash) HammingDist(other EudexHash) uint32` -/
def EudexHash.HammingDist (e other : EudexHash) : Nat :=
  let d := e.Sub other
  toU32 (OnesCount64 d)

/-- Source: `func (e EudexHash) Similar(other EudexHash) bool` -/
def EudexHash.Similar (e other : EudexHash) : Bool :=
  decide (e.Dist other < 15)

/-- Source: `func StringDistance(a, b string) uint32` -/
def StringDistance (a b : GoString) : Option Nat := do
  let x ← Eudex a
  let y ← Eudex b
  some (x.Dist y)

/-- Source: `func StringHammingDistance(a, b string) uint32` -/
def StringHammingDistance (a b : GoString) : Option Nat := do
  let x ← Eudex a
  let y ← Eudex b
  some (x.HammingDist y)

/-- Source: `func Similar(a, b string) bool` -/
def Similar (a b : GoString) : Option Bool := do
  let x ← Eudex a
  let y ← Eudex b
  some (x.Similar y)

/-! ## Specification-side vocabulary -/

/-- An ASCII letter, `A..Z` or `a..z`. -/
def isLetter (c : Byte) : Prop :=
  (65 ≤ c.val ∧ c.val ≤ 90) ∨ (97 ≤ c.val ∧ c.val ≤ 122)

instance (c : Byte) : Decidable (isLetter c) := by
  unfold isLetter; infer_instance

/-- The lower-case form of a byte: `A..Z` go to `a..z`, other bytes stay. -/
def lower (c : Byte) : Nat :=
  if 65 ≤ c.val ∧ c.val ≤ 90 then c.val + 32 else c.val

/-- The upper-case form of a byte: `a..z` go to `A..Z`, other bytes stay. -/
def upperByte (c : Byte) : Byte :=
  if 97 ≤ c.val ∧ c.val ≤ 122 then Fin.ofNat (c.val - 32) else c

/-- The function `toUpper` on a string: ASCII letters are upper-cased, other bytes stay. -/
def toUpper (s : GoString) : GoString := s.map upperByte

/-- The per-byte weights of the weighted distance, byte 0 (least significant)
first. -/
def weights : List Nat := [1, 2, 3, 5, 8, 13, 21, 34]

/-- The sum, over the bit positions `k` in `0..63` at which `a` and `b`
differ, of `weights[k / 8]`. -/
def weightedBitSum (a b : Nat) : Nat :=
  (((List.range 64).filter (fun k => decide (a.testBit k ≠ b.testBit k))).map
    (fun k => weights.getD (k / 8) 0)).sum

/-! ## The loop as a recursion over the remaining bytes -/

/-- The phone that the loop of `Eudex` looks up for a byte, `none` when the
byte is skipped. -/
def phoneOf (c : Byte) : Option Nat :=
  if foldEntry c.val < LETTERS then some (PHONES.getD (foldEntry c.val) 0) else none

/-- The value of `firstByte` for a first byte `c`. -/
def injOf (c : Byte) : Nat :=
  if foldEntry c.val < LETTERS then INJECTIVE_PHONES.getD (foldEntry c.val) 0 else 0

/-- The loop of `Eudex` over the bytes that remain to be read, from the
accumulator `res` and the counter `n`. -/
def scan : List Byte → Nat → Nat → Nat
  | [], res, _ => res
  | c :: cs, res, n =>
    if n < 8 then
      match phoneOf c with
      | some x => scan cs (retain res n x).1 (retain res n x).2
      | none => scan cs res n
    else res

/-- A vowel-class letter: one of `a e i o u y w`, in either case. -/
def isVowelClass (v : Byte) : Prop :=
  lower v ∈ [97, 101, 105, 111, 117, 121, 119]

instance (v : Byte) : Decidable (isVowelClass v) := by
  unfold isVowelClass; infer_instance

/-- The phones that the loop of `Eudex` retains, in the order in which they
are appended, over the bytes that remain to be read from the accumulator `res`
and the counter `n`: the recursion of `scan`, recording each phone that passes
the deduplication test. -/
def retainedPhones : List Byte → Nat → Nat → List Nat
  | [], _, _ => []
  | c :: cs, res, n =>
    if n < 8 then
      match phoneOf c with
      | some x =>
        if (res &&& 0xFE) ≠ (x &&& 0xFE) then
          x :: retainedPhones cs (retain res n x).1 (retain res n x).2
        else
          retainedPhones cs res n
      | none => retainedPhones cs res n
    else []

/-- On `uint64` operands `subU64` is the usual wrapping subtraction. -/
theorem subU64_eq (x y : Nat) (hx : x < 2 ^ 64) (hy : y < 2 ^ 64) :
    subU64 x y = (x + 2 ^ 64 - y) % 2 ^ 64 := by
  unfold subU64
  omega

set_option maxRecDepth 100000 in
theorem foldEntry_cases (c : Byte) :
    (foldEntry c.val < LETTERS ∧ isLetter c ∧ foldEntry c.val = lower c - 97 ∧
        PHONES[foldEntry c.val]? = some (PHONES.getD (foldEntry c.val) 0) ∧
        firstByteOf (foldEntry c.val) = some (INJECTIVE_PHONES.getD (foldEntry c.val) 0)) ∨
    (LETTERS ≤ foldEntry c.val ∧ ¬ isLetter c ∧
        ¬ (0xDF ≤ foldEntry c.val ∧ foldEntry c.val < 0xFF) ∧
        firstByteOf (foldEntry c.val) = some 0) := by
  revert c
  decide

theorem scan_nil (res n : Nat) : scan [] res n = res := rfl

theorem scan_cons (c : Byte) (cs : List Byte) (res n : Nat) :
    scan (c :: cs) res n =
      if n < 8 then
        match phoneOf c with
        | some x => scan cs (retain res n x).1 (retain res n x).2
        | none => scan cs res n
      else res := rfl

theorem scan_of_full (cs : List Byte) (res n : Nat) (h : 8 ≤ n) :
    scan cs res n = res := by
  cases cs with
  | nil => rfl
  | cons c cs => rw [scan_cons, if_neg (Nat.not_lt.mpr h)]

theorem phoneOf_eq_some (c : Byte) (h : foldEntry c.val < LETTERS) :
    phoneOf c = some (PHONES.getD (foldEntry c.val) 0) := by
  simp [phoneOf, h]

theorem phoneOf_eq_none (c : Byte) (h : LETTERS ≤ foldEntry c.val) :
    phoneOf c = none := by
  simp [phoneOf, Nat.not_lt.mpr h]

/-- With enough iterations left, the loop of `Eudex` started at position `b`
returns the scan of the bytes from `b` on. -/
theorem EudexLoop_eq_scan (sequence : GoString) (fuel res n b : Nat)
    (h : sequence.length ≤ b + fuel) :
    EudexLoop sequence fuel res n b = some (scan (sequence.drop b) res n) := by
  induction fuel generalizing res n b with
  | zero =>
    have hb : sequence.length ≤ b := by omega
    have hnb : ¬ (n < 8 ∧ b < sequence.length) := by omega
    simp only [EudexLoop, if_neg hnb, List.drop_eq_nil_of_le hb, scan]
  | succ fuel ih =>
    unfold EudexLoop
    by_cases hc : n < 8 ∧ b < sequence.length
    · obtain ⟨hn, hb⟩ := hc
      have hdrop : sequence.drop b = sequence[b] :: sequence.drop (b + 1) :=
        List.drop_eq_getElem_cons hb
      have hcc : charCode sequence b = some (sequence[b]).val := by
        simp [charCode, List.getElem?_eq_getElem hb]
      rw [if_pos ⟨hn, hb⟩, hdrop, hcc]
      simp only [Option.bind_eq_bind, Option.some_bind, scan, if_pos hn]
      rcases foldEntry_cases sequence[b] with ⟨h1, _, _, h4, _⟩ | ⟨h1, _, h3, _⟩
      · have hz : foldEntry (sequence[b]).val ≤ Z := by
          have : LETTERS ≤ Z := by decide
          omega
        rw [if_pos hz, if_pos h1, h4, phoneOf_eq_some _ h1]
        simp only [Option.some_bind]
        exact ih _ _ _ (by omega)
      · rw [phoneOf_eq_none _ h1, if_neg (Nat.not_lt.mpr h1), if_neg h3]
        simp only [ite_self]
        exact ih _ _ _ (by omega)
    · rw [if_neg hc]
      by_cases hn : n < 8
      · have hb : sequence.length ≤ b := by
          by_contra hlt
          exact hc ⟨hn, by omega⟩
        simp only [List.drop_eq_nil_of_le hb, scan]
      · rw [scan_of_full _ _ _ (by omega)]

/-- The value of `Eudex` on a non-empty string. -/
theorem Eudex_cons (c : Byte) (cs : List Byte) :
    Eudex (c :: cs) = some ⟨scan cs 0 0 ||| ((injOf c <<< 56) % 2 ^ 64)⟩ := by
  have hloop : EudexLoop (c :: cs) (cs.length + 1) 0 0 1 = some (scan cs 0 0) := by
    rw [EudexLoop_eq_scan _ _ _ _ _ (by simp)]
    rfl
  have hfirst : firstByteOf (foldEntry c.val) = some (injOf c) := by
    rcases foldEntry_cases c with ⟨h1, _, _, _, h5⟩ | ⟨h1, _, _, h4⟩
    · simp [injOf, h1, h5]
    · simp [injOf, Nat.not_lt.mpr h1, h4]
  simp [Eudex, EudexFuel, charCode, hfirst, hloop]

/-- The value of `Eudex` on the empty string. -/
theorem Eudex_nil : Eudex [] = some ⟨0⟩ := rfl

/-- Every string has a fingerprint: no table access of `Eudex` is out of range
and `len(sequence)` iterations are enough for its loop. -/
theorem Eudex_isSome (s : GoString) : ∃ e, Eudex s = some e := by
  cases s with
  | nil => exact ⟨_, Eudex_nil⟩
  | cons c cs => exact ⟨_, Eudex_cons c cs⟩

/-! ## The first letter and the C1 tables -/

/-- No byte of `0xDF..0xFE` reaches a C1 table: as a first byte it contributes
0, and after the first position the loop skips it. -/
theorem accented_byte_unmapped (c : Byte) (h1 : 0xDF ≤ c.val) (h2 : c.val ≤ 0xFE) :
    Eudex [c] = some ⟨0⟩ ∧ phoneOf c = none := by
  have hl : ¬ isLetter c := by
    unfold isLetter
    omega
  rcases foldEntry_cases c with ⟨_, h, _⟩ | ⟨h, _⟩
  · exact absurd h hl
  · refine ⟨?_, phoneOf_eq_none c h⟩
    rw [Eudex_cons]
    simp [injOf, Nat.not_lt.mpr h, scan_nil]

/-- C1 (the code departs from the claim). The word "algorithm" starts with the
ASCII letter `a`, whose injective phone is `0x84`. The loop retains eight
phones after it (`l g o r i t h m`); the eighth append shifts the first of
them, `0xA0`, into bits 56..63, where it is or-ed with the first byte. The
most significant byte of the fingerprint is `0xA4`, not `0x84`. -/
theorem Eudex_algorithm_top_byte :
    isLetter 97 ∧ ascii "algorithm" = 97 :: ascii "lgorithm" ∧
      INJECTIVE_PHONES[lower 97 - 97]? = some 0x84 ∧
      Eudex (ascii "algorithm") = some ⟨0xA40800A1011D0402⟩ ∧
      0xA40800A1011D0402 >>> 56 = 0xA4 := by
  decide

/-- C2 (the code departs from the claim). The byte `0xE9` (é) lies in
`0xDF..0xFE` and `INJECTIVE_PHONES_C1[0xE9 - 0xDF]` is `0xD9`, yet the
fingerprint of the one-byte string is 0: the range test is made on the entry
`((c | 32) - 'a') & 0xFF`, which is `0x88` here, not on the character code.
Likewise the byte `0xF1` (ñ) after a first `l` is skipped, although
`PHONES_C1[0xF1 - 0xDF]` is `0x17` and differs from the accumulator on bits
1..7: the fingerprint is that of "l" alone, and "l", ñ, "l" hashes like
"ll". -/
theorem Eudex_accented_bytes_unmapped :
    INJECTIVE_PHONES_C1[0xE9 - 0xDF]? = some 0xD9 ∧
      foldEntry 0xE9 = 0x88 ∧
      Eudex [0xE9] = some ⟨0⟩ ∧
      PHONES_C1[0xF1 - 0xDF]? = some 0x17 ∧
      Eudex [0x6C, 0xF1] = Eudex [0x6C] ∧
      Eudex [0x6C, 0xF1] = some ⟨0x50 <<< 56⟩ ∧
      Eudex [0x6C, 0xF1, 0x6C] = Eudex [0x6C, 0x6C] := by
  decide

/-- C3 (the code departs from the claim). On "fingerprint" the loop retains
eight phones (`n g e r p r i n`), its condition being `n < 8`: the accumulator
is `0x120800A149A10112`, not below `2 ^ 56`, and the `n` that follows the
seventh retained phone changes the fingerprint ("fingerpri" against
"fingerprin"). -/
theorem Eudex_fingerprint_eight_phones :
    EudexLoop (ascii "fingerprint") 11 0 0 1 = some 0x120800A149A10112 ∧
      2 ^ 56 ≤ 0x120800A149A10112 ∧
      Eudex (ascii "fingerpri") = some ⟨0x22120800A149A101⟩ ∧
      Eudex (ascii "fingerprin") = some ⟨0x320800A149A10112⟩ ∧
      Eudex (ascii "fingerpri") ≠ Eudex (ascii "fingerprin") := by
  decide

/-- C4 (the code departs from the claim). The letters `t` and `s` differ, but
"thanksgiving" and "shanksgiving" have the same fingerprint: eight phones are
retained after the first letter, the phone of `h` (`0x04`) reaches bits 56..63
and hides the one bit on which the injective phones `0x0E` and `0x0A`
differ. -/
theorem Eudex_leading_letter_collision :
    isLetter 116 ∧ isLetter 115 ∧ lower 116 ≠ lower 115 ∧
      INJECTIVE_PHONES[lower 116 - 97]? ≠ INJECTIVE_PHONES[lower 115 - 97]? ∧
      Eudex (116 :: ascii "hanksgiving") = some ⟨0x0E00120914080145⟩ ∧
      Eudex (116 :: ascii "hanksgiving") = Eudex (115 :: ascii "hanksgiving") := by
  decide

/-! ## Invariance of the fingerprint -/

theorem scan_skip (c : Byte) (cs : List Byte) (res n : Nat) (hc : phoneOf c = none) :
    scan (c :: cs) res n = scan cs res n := by
  rw [scan_cons, hc]
  by_cases hn : n < 8
  · rw [if_pos hn]
  · rw [if_neg hn, scan_of_full _ _ _ (Nat.not_lt.mp hn)]

theorem scan_append_skip (p s : List Byte) (c : Byte) (res n : Nat)
    (hc : phoneOf c = none) :
    scan (p ++ c :: s) res n = scan (p ++ s) res n := by
  induction p generalizing res n with
  | nil => exact scan_skip c s res n hc
  | cons a p ih =>
    rw [List.cons_append, List.cons_append, scan_cons, scan_cons]
    simp only [ih]

/-- C5: a non-letter ASCII byte `c` anywhere after the first position is
ignored: for every non-empty `p` and every `s`, `Eudex (p ++ [c] ++ s)` and
`Eudex (p ++ s)` are the same fingerprint. -/
theorem Eudex_noise_ignored (p s : GoString) (c : Byte) (hp : p ≠ [])
    (_hascii : c.val < 128) (hc : ¬ isLetter c) :
    ∃ e, Eudex (p ++ [c] ++ s) = some e ∧ Eudex (p ++ s) = some e := by
  obtain ⟨a, p, rfl⟩ := List.exists_cons_of_ne_nil hp
  have hnone : phoneOf c = none := by
    rcases foldEntry_cases c with ⟨_, h2, _⟩ | ⟨h1, _⟩
    · exact absurd h2 hc
    · exact phoneOf_eq_none c h1
  refine ⟨_, ?_, Eudex_cons a (p ++ s)⟩
  rw [List.append_assoc, List.singleton_append, List.cons_append, Eudex_cons,
    scan_append_skip p s c 0 0 hnone]

/-- C5, on the test input: "comp@u#te?r" with the `@` removed. -/
theorem Eudex_noise_ignored_witness :
    (ascii "comp" ≠ [] ∧ (64 : Byte).val < 128 ∧ ¬ isLetter 64) ∧
      ∃ e, Eudex (ascii "comp" ++ [64] ++ ascii "u#te?r") = some e ∧
        Eudex (ascii "comp" ++ ascii "u#te?r") = some e :=
  ⟨by decide, Eudex_noise_ignored (ascii "comp") (ascii "u#te?r") 64
    (by decide) (by decide) (by decide)⟩

theorem append_low (res x : Nat) :
    (((res <<< 8) % 2 ^ 64) ||| x) &&& 0xFE = x &&& 0xFE := by
  apply Nat.eq_of_testBit_eq
  intro i
  simp only [Nat.testBit_and, Nat.testBit_or, Nat.testBit_mod_two_pow,
    Nat.testBit_shiftLeft]
  by_cases hi : i < 8
  · have h8 : ¬ (i ≥ 8) := by omega
    simp [h8]
  · have hlt : (0xFE : Nat) < 2 ^ i :=
      lt_of_lt_of_le (by norm_num) (Nat.pow_le_pow_right (by norm_num) (Nat.not_lt.mp hi))
    simp [Nat.testBit_lt_two_pow hlt]

/-- After the deduplication step for a phone `x`, the accumulator agrees with
`x` on bits 1..7. -/
theorem retain_low (res n x : Nat) :
    (retain res n x).1 &&& 0xFE = x &&& 0xFE := by
  unfold retain
  by_cases h : (res &&& 0xFE) ≠ (x &&& 0xFE)
  · rw [if_pos h]
    exact append_low res x
  · rw [if_neg h]
    exact not_not.mp h

theorem retain_of_eq (res n x : Nat) (h : res &&& 0xFE = x &&& 0xFE) :
    retain res n x = (res, n) := by
  unfold retain
  rw [if_neg (not_not.mpr h)]

theorem scan_repeat (c d : Byte) (s : List Byte) (res n xc xd : Nat)
    (hc : phoneOf c = some xc) (hd : phoneOf d = some xd)
    (hcd : xc &&& 0xFE = xd &&& 0xFE) :
    scan (c :: d :: s) res n = scan (c :: s) res n := by
  rw [scan_cons, scan_cons c s, hc]
  by_cases hn : n < 8
  · simp only [if_pos hn]
    have hlow : (retain res n xc).1 &&& 0xFE = xd &&& 0xFE := by
      rw [retain_low, hcd]
    rw [scan_cons, hd]
    by_cases hn1 : (retain res n xc).2 < 8
    · simp only [if_pos hn1, retain_of_eq _ _ _ hlow]
    · rw [if_neg hn1, scan_of_full _ _ _ (Nat.not_lt.mp hn1)]
  · simp only [if_neg hn]

theorem scan_append_repeat (p s : List Byte) (c d : Byte) (res n xc xd : Nat)
    (hc : phoneOf c = some xc) (hd : phoneOf d = some xd)
    (hcd : xc &&& 0xFE = xd &&& 0xFE) :
    scan (p ++ c :: d :: s) res n = scan (p ++ c :: s) res n := by
  induction p generalizing res n with
  | nil => exact scan_repeat c d s res n xc xd hc hd hcd
  | cons a p ih =>
    rw [List.cons_append, List.cons_append, scan_cons, scan_cons]
    simp only [ih]

/-- The phone that the loop looks up for an ASCII letter is the `PHONES` entry
of its lower-case form. -/
theorem phoneOf_letter (c : Byte) (hc : isLetter c) :
    phoneOf c = some (PHONES.getD (lower c - 97) 0) := by
  rcases foldEntry_cases c with ⟨h1, _, h3, _⟩ | ⟨_, h2, _⟩
  · rw [phoneOf_eq_some c h1, h3]
  · exact absurd hc h2

/-- C6: repetition collapse. For ASCII letters `c` and `d` whose `PHONES`
entries agree under the mask `0xFE`, for every non-empty `p` and every `s`,
`Eudex (p ++ [c] ++ [d] ++ s)` and `Eudex (p ++ [c] ++ s)` are the same
fingerprint. -/
theorem Eudex_repetition_collapse (p s : GoString) (c d : Byte) (hp : p ≠ [])
    (hc : isLetter c) (hd : isLetter d)
    (hcd : PHONES.getD (lower c - 97) 0 &&& 0xFE = PHONES.getD (lower d - 97) 0 &&& 0xFE) :
    ∃ e, Eudex (p ++ [c] ++ [d] ++ s) = some e ∧ Eudex (p ++ [c] ++ s) = some e := by
  obtain ⟨a, p, rfl⟩ := List.exists_cons_of_ne_nil hp
  refine ⟨_, ?_, Eudex_cons a (p ++ [c] ++ s)⟩
  have h1 : a :: p ++ [c] ++ [d] ++ s = a :: (p ++ c :: d :: s) := by simp
  have h2 : p ++ [c] ++ s = p ++ c :: s := by simp
  rw [h1, h2, Eudex_cons,
    scan_append_repeat p s c d 0 0 _ _ (phoneOf_letter c hc) (phoneOf_letter d hd) hcd]

/-- C6, on the test input: the `y` after the `i` of "riyndom" is dropped. -/
theorem Eudex_repetition_collapse_witness :
    (ascii "r" ≠ [] ∧ isLetter 105 ∧ isLetter 121 ∧
        PHONES.getD (lower 105 - 97) 0 &&& 0xFE = PHONES.getD (lower 121 - 97) 0 &&& 0xFE) ∧
      ∃ e, Eudex (ascii "r" ++ [105] ++ [121] ++ ascii "ndom") = some e ∧
        Eudex (ascii "r" ++ [105] ++ ascii "ndom") = some e :=
  ⟨by decide, Eudex_repetition_collapse (ascii "r") (ascii "ndom") 105 121
    (by decide) (by decide) (by decide) (by decide)⟩

set_option maxRecDepth 100000 in
theorem foldEntry_upperByte (c : Byte) :
    foldEntry (upperByte c).val = foldEntry c.val := by
  revert c
  decide

theorem phoneOf_upperByte (c : Byte) : phoneOf (upperByte c) = phoneOf c := by
  unfold phoneOf
  rw [foldEntry_upperByte]

theorem injOf_upperByte (c : Byte) : injOf (upperByte c) = injOf c := by
  unfold injOf
  rw [foldEntry_upperByte]

theorem scan_toUpper (cs : List Byte) (res n : Nat) :
    scan (toUpper cs) res n = scan cs res n := by
  induction cs generalizing res n with
  | nil => rfl
  | cons c cs ih =>
    show scan (upperByte c :: toUpper cs) res n = scan (c :: cs) res n
    rw [scan_cons, scan_cons, phoneOf_upperByte]
    simp only [ih]

/-- C7: case insensitivity. For every string `s`, `Eudex s` and
`Eudex (toUpper s)` are the same fingerprint, `toUpper` mapping `a..z` to
`A..Z` and leaving every other byte unchanged. -/
theorem Eudex_toUpper (s : GoString) :
    ∃ e, Eudex s = some e ∧ Eudex (toUpper s) = some e := by
  cases s with
  | nil => exact ⟨_, Eudex_nil, Eudex_nil⟩
  | cons c cs =>
    refine ⟨_, Eudex_cons c cs, ?_⟩
    show Eudex (upperByte c :: toUpper cs) = _
    rw [Eudex_cons, scan_toUpper, injOf_upperByte]

/-- The test input of case insensitivity: "triggered" and "TRIGGERED". -/
theorem Eudex_triggered :
    toUpper (ascii "triggered") = ascii "TRIGGERED" ∧
      Eudex (ascii "triggered") = Eudex (ascii "TRIGGERED") := by
  decide

/-! ## Distances -/

theorem length_filter_eq_sum (l : List Nat) (p : Nat → Bool) :
    (l.filter p).length = (l.map (fun i => (p i).toNat)).sum := by
  induction l with
  | nil => rfl
  | cons a l ih =>
    cases h : p a
    · simp [List.filter_cons, h, ih]
    · simp [List.filter_cons, h, ih]
      omega

theorem sum_map_filter (l : List Nat) (p : Nat → Bool) (f : Nat → Nat) :
    ((l.filter p).map f).sum = (l.map (fun k => (p k).toNat * f k)).sum := by
  induction l with
  | nil => rfl
  | cons a l ih =>
    cases h : p a <;> simp [List.filter_cons, h, ih]

theorem testBit_toU8_shift (d s i : Nat) (hi : i < 8) :
    (toU8 (d >>> s)).testBit i = d.testBit (s + i) := by
  unfold toU8
  rw [Nat.testBit_mod_two_pow, Nat.testBit_shiftRight]
  simp [hi]

theorem OnesCount8_toU8_shift (d s : Nat) :
    OnesCount8 (toU8 (d >>> s)) =
      ((List.range 8).map (fun i => (d.testBit (s + i)).toNat)).sum := by
  unfold OnesCount8
  rw [length_filter_eq_sum]
  congr 1
  apply List.map_congr_left
  intro i hi
  rw [testBit_toU8_shift d s i (List.mem_range.mp hi)]

theorem OnesCount8_toU8 (d : Nat) :
    OnesCount8 (toU8 d) = ((List.range 8).map (fun i => (d.testBit i).toNat)).sum := by
  have h := OnesCount8_toU8_shift d 0
  simpa using h

theorem OnesCount8_le (x : Nat) : OnesCount8 x ≤ 8 := by
  unfold OnesCount8
  exact le_trans (List.length_filter_le _ _) (by simp)

theorem testBit_xor_eq (a b k : Nat) :
    (a ^^^ b).testBit k = decide (a.testBit k ≠ b.testBit k) := by
  rw [Nat.testBit_xor]
  cases a.testBit k <;> cases b.testBit k <;> rfl

theorem range8 : List.range 8 = [0, 1, 2, 3, 4, 5, 6, 7] := by decide

theorem range64 : List.range 64 =
    [0, 1, 2, 3, 4, 5, 6, 7, 8, 9, 10, 11, 12, 13, 14, 15,
     16, 17, 18, 19, 20, 21, 22, 23, 24, 25, 26, 27, 28, 29, 30, 31,
     32, 33, 34, 35, 36, 37, 38, 39, 40, 41, 42, 43, 44, 45, 46, 47,
     48, 49, 50, 51, 52, 53, 54, 55, 56, 57, 58, 59, 60, 61, 62, 63] := by decide

theorem Dist_eq_counts (a b : EudexHash) :
    a.Dist b =
      OnesCount8 (toU8 (a.h ^^^ b.h)) +
      OnesCount8 (toU8 ((a.h ^^^ b.h) >>> 8)) * 2 +
      OnesCount8 (toU8 ((a.h ^^^ b.h) >>> 16)) * 3 +
      OnesCount8 (toU8 ((a.h ^^^ b.h) >>> 24)) * 5 +
      OnesCount8 (toU8 ((a.h ^^^ b.h) >>> 32)) * 8 +
      OnesCount8 (toU8 ((a.h ^^^ b.h) >>> 40)) * 13 +
      OnesCount8 (toU8 ((a.h ^^^ b.h) >>> 48)) * 21 +
      OnesCount8 (toU8 ((a.h ^^^ b.h) >>> 56)) * 34 := by
  have h0 := OnesCount8_le (toU8 (a.h ^^^ b.h))
  have h1 := OnesCount8_le (toU8 ((a.h ^^^ b.h) >>> 8))
  have h2 := OnesCount8_le (toU8 ((a.h ^^^ b.h) >>> 16))
  have h3 := OnesCount8_le (toU8 ((a.h ^^^ b.h) >>> 24))
  have h4 := OnesCount8_le (toU8 ((a.h ^^^ b.h) >>> 32))
  have h5 := OnesCount8_le (toU8 ((a.h ^^^ b.h) >>> 40))
  have h6 := OnesCount8_le (toU8 ((a.h ^^^ b.h) >>> 48))
  have h7 := OnesCount8_le (toU8 ((a.h ^^^ b.h) >>> 56))
  simp only [EudexHash.Dist, EudexHash.Sub, addU32, mulU32, toU32]
  omega

theorem weightedBitSum_eq (a b : Nat) :
    weightedBitSum a b =
      ((List.range 64).map (fun k => ((a ^^^ b).testBit k).toNat * weights.getD (k / 8) 0)).sum := by
  unfold weightedBitSum
  rw [sum_map_filter]
  congr 1
  apply List.map_congr_left
  intro k _
  rw [testBit_xor_eq]

theorem Dist_eq_sum (a b : EudexHash) :
    a.Dist b = weightedBitSum a.h b.h := by
  rw [Dist_eq_counts, weightedBitSum_eq]
  simp only [OnesCount8_toU8_shift, OnesCount8_toU8, range8, range64, List.map_cons, List.map_nil,
    List.sum_cons, List.sum_nil]
  simp [weights]
  omega

theorem weightedBitSum_le (a b : Nat) : weightedBitSum a b ≤ 696 := by
  have h := Dist_eq_sum ⟨a⟩ ⟨b⟩
  rw [Dist_eq_counts] at h
  have h0 := OnesCount8_le (toU8 (a ^^^ b))
  have h1 := OnesCount8_le (toU8 ((a ^^^ b) >>> 8))
  have h2 := OnesCount8_le (toU8 ((a ^^^ b) >>> 16))
  have h3 := OnesCount8_le (toU8 ((a ^^^ b) >>> 24))
  have h4 := OnesCount8_le (toU8 ((a ^^^ b) >>> 32))
  have h5 := OnesCount8_le (toU8 ((a ^^^ b) >>> 40))
  have h6 := OnesCount8_le (toU8 ((a ^^^ b) >>> 48))
  have h7 := OnesCount8_le (toU8 ((a ^^^ b) >>> 56))
  simp only at h
  omega

/-- C8: for every two fingerprints `a` and `b`, `a.Dist b` is the sum, over the
bit positions `k` in `0..63` at which `a` and `b` differ, of `w[k / 8]` with
`w = [1, 2, 3, 5, 8, 13, 21, 34]`. The `uint32` arithmetic of `Dist` never
wraps: the sum is at most `8 * 87 = 696`, below `2 ^ 32`. -/
theorem Dist_eq_weightedBitSum (a b : EudexHash) :
    a.Dist b = weightedBitSum a.h b.h ∧ weightedBitSum a.h b.h ≤ 696 ∧
      696 < 2 ^ 32 :=
  ⟨Dist_eq_sum a b, weightedBitSum_le a.h b.h, by norm_num⟩

theorem Dist_comm (x y : EudexHash) : x.Dist y = y.Dist x := by
  simp only [EudexHash.Dist, EudexHash.Sub, Nat.xor_comm x.h y.h]

theorem HammingDist_comm (x y : EudexHash) : x.HammingDist y = y.HammingDist x := by
  simp only [EudexHash.HammingDist, EudexHash.Sub, Nat.xor_comm x.h y.h]

theorem StringDistance_eq (a b : GoString) (x y : EudexHash)
    (hx : Eudex a = some x) (hy : Eudex b = some y) :
    StringDistance a b = some (x.Dist y) := by
  simp [StringDistance, hx, hy]

theorem Similar_eq (a b : GoString) (x y : EudexHash)
    (hx : Eudex a = some x) (hy : Eudex b = some y) :
    Similar a b = some (x.Similar y) := by
  simp [Similar, hx, hy]

/-- C9: the distances are symmetric. For all strings `a` and `b`,
`StringDistance a b` and `StringDistance b a` are the same number, and for all
fingerprints `x` and `y`, `x.Dist y = y.Dist x` and
`x.HammingDist y = y.HammingDist x`. -/
theorem distances_symmetric :
    (∀ a b : GoString, ∃ d, StringDistance a b = some d ∧ StringDistance b a = some d) ∧
      (∀ x y : EudexHash, x.Dist y = y.Dist x ∧ x.HammingDist y = y.HammingDist x) := by
  refine ⟨fun a b => ?_, fun x y => ⟨Dist_comm x y, HammingDist_comm x y⟩⟩
  obtain ⟨x, hx⟩ := Eudex_isSome a
  obtain ⟨y, hy⟩ := Eudex_isSome b
  refine ⟨x.Dist y, StringDistance_eq a b x y hx hy, ?_⟩
  rw [StringDistance_eq b a y x hy hx, Dist_comm]

/-- C10: for all strings `a` and `b`, `Similar a b` returns `true` if and only
if `StringDistance a b` is strictly less than 15, that is at most 14. -/
theorem Similar_iff_StringDistance_lt (a b : GoString) :
    ∃ d r, StringDistance a b = some d ∧ Similar a b = some r ∧
      (r = true ↔ d < 15) ∧ (d < 15 ↔ d ≤ 14) := by
  obtain ⟨x, hx⟩ := Eudex_isSome a
  obtain ⟨y, hy⟩ := Eudex_isSome b
  refine ⟨x.Dist y, x.Similar y, StringDistance_eq a b x y hx hy,
    Similar_eq a b x y hx hy, ?_, by omega⟩
  simp [EudexHash.Similar]

/-! ## Totality, identity and the empty string -/

/-- C11: `Eudex` is total. For every byte string the call returns a
fingerprint with the loop allowed `len(sequence) - 1` iterations: no string or
table access is out of range (an access out of range would give `none`) and
the loop condition fails after at most `len(sequence) - 1` iterations. The
guards keep the indexes inside the tables: the ASCII tables have `LETTERS`
entries and the C1 tables more than `0xFF - 0xDF`. -/
theorem Eudex_total (s : GoString) :
    (∃ e, EudexFuel (s.length - 1) s = some e ∧ Eudex s = some e) ∧
      (∀ entry, entry < LETTERS →
        entry < PHONES.length ∧ entry < INJECTIVE_PHONES.length) ∧
      (∀ entry, 0xDF ≤ entry → entry < 0xFF →
        entry - 0xDF < PHONES_C1.length ∧ entry - 0xDF < INJECTIVE_PHONES_C1.length) := by
  refine ⟨?_, ?_, ?_⟩
  · cases s with
    | nil => exact ⟨⟨0⟩, rfl, rfl⟩
    | cons c cs =>
      refine ⟨_, ?_, Eudex_cons c cs⟩
      have hloop : EudexLoop (c :: cs) cs.length 0 0 1 = some (scan cs 0 0) := by
        rw [EudexLoop_eq_scan _ _ _ _ _ (by simp; omega)]
        rfl
      have hfirst : firstByteOf (foldEntry c.val) = some (injOf c) := by
        rcases foldEntry_cases c with ⟨h1, _, _, _, h5⟩ | ⟨h1, _, _, h4⟩
        · simp [injOf, h1, h5]
        · simp [injOf, Nat.not_lt.mpr h1, h4]
      simp [EudexFuel, charCode, hfirst, hloop]
  · intro entry h
    have h1 : PHONES.length = 26 := by decide
    have h2 : INJECTIVE_PHONES.length = 26 := by decide
    have h3 : LETTERS = 26 := rfl
    omega
  · intro entry _ h
    have h1 : PHONES_C1.length = 33 := by decide
    have h2 : INJECTIVE_PHONES_C1.length = 33 := by decide
    omega

theorem Dist_self (x : EudexHash) : x.Dist x = 0 := by
  simp only [EudexHash.Dist, EudexHash.Sub, Nat.xor_self]
  decide

theorem HammingDist_self (x : EudexHash) : x.HammingDist x = 0 := by
  simp only [EudexHash.HammingDist, EudexHash.Sub, Nat.xor_self]
  decide

/-- C12: identity. For every fingerprint `x`, `x.Dist x = 0` and
`x.HammingDist x = 0`; hence for every string `s`, `StringDistance s s` is 0
and `Similar s s` is true, in particular on the empty string. -/
theorem distance_identity :
    (∀ x : EudexHash, x.Dist x = 0 ∧ x.HammingDist x = 0) ∧
      (∀ s : GoString, StringDistance s s = some 0 ∧ Similar s s = some true) ∧
      Similar (ascii "") (ascii "") = some true := by
  refine ⟨fun x => ⟨Dist_self x, HammingDist_self x⟩, fun s => ?_, by decide⟩
  obtain ⟨x, hx⟩ := Eudex_isSome s
  rw [StringDistance_eq s s x x hx hx, Similar_eq s s x x hx hx]
  simp [EudexHash.Similar, Dist_self]

/-- C13: `Eudex` of the empty string is the all-zero 64-bit fingerprint. -/
theorem Eudex_empty : Eudex [] = some ⟨0⟩ ∧ Eudex (ascii "") = some ⟨0⟩ :=
  ⟨rfl, rfl⟩

/-! ## The first byte and the start of the scan -/

theorem injOf_of_not_letter (c : Byte) (hc : ¬ isLetter c) : injOf c = 0 := by
  rcases foldEntry_cases c with ⟨_, h, _⟩ | ⟨h, _⟩
  · exact absurd h hc
  · simp [injOf, Nat.not_lt.mpr h]

theorem Eudex_cons_congr (c d : Byte) (cs ds : List Byte)
    (hinj : injOf c = injOf d) (hscan : scan cs 0 0 = scan ds 0 0) :
    ∃ e, Eudex (c :: cs) = some e ∧ Eudex (d :: ds) = some e := by
  refine ⟨_, Eudex_cons c cs, ?_⟩
  rw [Eudex_cons, hinj, hscan]

set_option maxRecDepth 100000 in
theorem phoneOf_vowelClass (v : Byte) :
    isVowelClass v → isLetter v ∧ (phoneOf v).map (fun x => x &&& 0xFE) = some 0 := by
  revert v
  decide

theorem scan_vowel_first (v : Byte) (s : List Byte) (hv : isVowelClass v) :
    scan (v :: s) 0 0 = scan s 0 0 := by
  obtain ⟨x, hx, hlow⟩ : ∃ x, phoneOf v = some x ∧ x &&& 0xFE = 0 := by
    have h := (phoneOf_vowelClass v hv).2
    cases hp : phoneOf v with
    | none => rw [hp] at h; simp at h
    | some x =>
      rw [hp] at h
      exact ⟨x, rfl, by simpa using h⟩
  have hret : retain 0 0 x = (0, 0) := retain_of_eq 0 0 x (by rw [hlow]; rfl)
  rw [scan_cons, hx]
  simp only [hret]
  rfl

/-- C15: a vowel-class letter directly after the first character is dropped.
For every byte `c`, every letter `v` among `a e i o u y w` (either case) and
every string `s`, `Eudex ([c] ++ [v] ++ s)` and `Eudex ([c] ++ s)` are the same
fingerprint; in particular "jiva" and "java" have the same fingerprint. -/
theorem Eudex_vowel_after_first (c v : Byte) (s : GoString) (hv : isVowelClass v) :
    (∃ e, Eudex ([c] ++ [v] ++ s) = some e ∧ Eudex ([c] ++ s) = some e) ∧
      Eudex (ascii "jiva") = Eudex (ascii "java") :=
  ⟨Eudex_cons_congr c c (v :: s) s rfl (scan_vowel_first v s hv), by decide⟩

/-- C15, on the test input: the `i` of "jiva" is dropped. -/
theorem Eudex_vowel_after_first_witness :
    isVowelClass 105 ∧
      ((∃ e, Eudex ([106] ++ [105] ++ ascii "va") = some e ∧
          Eudex ([106] ++ ascii "va") = some e) ∧
        Eudex (ascii "jiva") = Eudex (ascii "java")) :=
  ⟨by decide, Eudex_vowel_after_first 106 105 (ascii "va") (by decide)⟩

/-- C19: a leading `w` is indistinguishable from a leading non-letter. For
every byte `c` that is not an ASCII letter and every string `s`,
`Eudex ([c] ++ s)` and `Eudex ("w" ++ s)` are the same fingerprint:
`INJECTIVE_PHONES['w' - 'a']` is 0 and `firstByte` stays 0 for `c`. -/
theorem Eudex_leading_w (c : Byte) (s : GoString) (hc : ¬ isLetter c) :
    (∃ e, Eudex ([c] ++ s) = some e ∧ Eudex (ascii "w" ++ s) = some e) ∧
      INJECTIVE_PHONES[119 - 97]? = some 0 ∧
      firstByteOf (foldEntry c.val) = some 0 := by
  refine ⟨Eudex_cons_congr c 119 s s ?_ rfl, by decide, ?_⟩
  · rw [injOf_of_not_letter c hc]
    decide
  · rcases foldEntry_cases c with ⟨_, h, _⟩ | ⟨_, _, _, h⟩
    · exact absurd h hc
    · exact h

/-- C19, on a digit: "4chan" and "wchan" have the same fingerprint. -/
theorem Eudex_leading_w_witness :
    ¬ isLetter 52 ∧
      ((∃ e, Eudex ([52] ++ ascii "chan") = some e ∧
          Eudex (ascii "w" ++ ascii "chan") = some e) ∧
        INJECTIVE_PHONES[119 - 97]? = some 0 ∧
        firstByteOf (foldEntry (52 : Byte).val) = some 0) :=
  ⟨by decide, Eudex_leading_w 52 (ascii "chan") (by decide)⟩

set_option maxRecDepth 100000 in
/-- C20: the case-folding index computation is exact on letters. For every
byte `c`, the entry `(((c | 32) - 'a') mod 2 ^ 64) & 0xFF` computed by `Eudex`
is below 26 if and only if `c` is an ASCII letter, and then it is
`lower c - 'a'`. -/
theorem foldEntry_exact (c : Byte) :
    foldEntry c.val = ((((c.val ||| 32) + 2 ^ 64 - 97) % 2 ^ 64) &&& 0xFF) ∧
      (foldEntry c.val < 26 ↔ isLetter c) ∧
      (isLetter c → foldEntry c.val = lower c - 97 ∧ lower c - 97 < 26) := by
  revert c
  decide

/-! ## Metric properties of the distances -/

theorem sum_map_le_add (l : List Nat) (f g h : Nat → Nat)
    (hle : ∀ k ∈ l, f k ≤ g k + h k) :
    (l.map f).sum ≤ (l.map g).sum + (l.map h).sum := by
  induction l with
  | nil => simp
  | cons a l ih =>
    have h1 := hle a (List.mem_cons_self a l)
    have h2 := ih (fun k hk => hle k (List.mem_cons_of_mem a hk))
    simp only [List.map_cons, List.sum_cons]
    omega

theorem le_sum_map_of_mem (l : List Nat) (f : Nat → Nat) (k : Nat) (hk : k ∈ l) :
    f k ≤ (l.map f).sum := by
  induction l with
  | nil => simp at hk
  | cons a l ih =>
    simp only [List.map_cons, List.sum_cons]
    rcases List.mem_cons.mp hk with rfl | hmem
    · omega
    · have := ih hmem
      omega

theorem xor_bit_triangle (a b c k w : Nat) :
    ((a ^^^ c).testBit k).toNat * w ≤
      ((a ^^^ b).testBit k).toNat * w + ((b ^^^ c).testBit k).toNat * w := by
  simp only [Nat.testBit_xor]
  cases a.testBit k <;> cases b.testBit k <;> cases c.testBit k <;> simp

/-- C17: the weighted distance satisfies the triangle inequality: for all
fingerprints `a`, `b`, `c`, `a.Dist c ≤ a.Dist b + b.Dist c`. -/
theorem Dist_triangle (a b c : EudexHash) : a.Dist c ≤ a.Dist b + b.Dist c := by
  rw [Dist_eq_sum, Dist_eq_sum, Dist_eq_sum, weightedBitSum_eq, weightedBitSum_eq,
    weightedBitSum_eq]
  exact sum_map_le_add _ _ _ _ (fun k _ => xor_bit_triangle a.h b.h c.h k _)

/-- A bit on which `a` and `b` differ costs its weight in the weighted sum. -/
theorem xor_bit_le_weightedBitSum (a b k : Nat) (hk : k < 64) :
    ((a ^^^ b).testBit k).toNat * weights.getD (k / 8) 0 ≤ weightedBitSum a b := by
  rw [weightedBitSum_eq]
  exact le_sum_map_of_mem (List.range 64)
    (fun k => ((a ^^^ b).testBit k).toNat * weights.getD (k / 8) 0) k (List.mem_range.mpr hk)

theorem weights_pos (k : Nat) (hk : k < 64) : 0 < weights.getD (k / 8) 0 := by
  revert k
  decide

theorem weights_high (k : Nat) (hk : k < 64) (h48 : 48 ≤ k) :
    21 ≤ weights.getD (k / 8) 0 := by
  revert k
  decide

/-- Below a weighted sum of 15, `a` and `b` agree on every bit of 48..63. -/
theorem testBit_eq_of_weightedBitSum_lt (a b k : Nat) (h : weightedBitSum a b < 15)
    (h48 : 48 ≤ k) (hk : k < 64) : a.testBit k = b.testBit k := by
  have h1 := xor_bit_le_weightedBitSum a b k hk
  have h2 := weights_high k hk h48
  have h3 : (a ^^^ b).testBit k = false := by
    cases hx : (a ^^^ b).testBit k with
    | false => rfl
    | true =>
      rw [hx] at h1
      simp only [Bool.toNat_true, Nat.one_mul] at h1
      omega
  rw [Nat.testBit_xor] at h3
  cases ha : a.testBit k <;> cases hb : b.testBit k <;> simp [ha, hb] at h3 <;> rfl

/-- C16: for all fingerprints `a` and `b`, if `a.Similar b` is true then `a`
and `b` agree on their two most significant bytes, bits 48..63: a differing
bit there costs 21 or 34, which is not below 15. -/
theorem Similar_high_bytes (a b : EudexHash) (h : a.Similar b = true) :
    (∀ k, 48 ≤ k → k < 64 → a.h.testBit k = b.h.testBit k) ∧
      (a.h >>> 48) % 2 ^ 16 = (b.h >>> 48) % 2 ^ 16 ∧
      weights.getD 6 0 = 21 ∧ weights.getD 7 0 = 34 := by
  have hlt : weightedBitSum a.h b.h < 15 := by
    rw [← Dist_eq_sum]
    simpa [EudexHash.Similar] using h
  have hbits : ∀ k, 48 ≤ k → k < 64 → a.h.testBit k = b.h.testBit k :=
    fun k h48 hk => testBit_eq_of_weightedBitSum_lt a.h b.h k hlt h48 hk
  refine ⟨hbits, ?_, rfl, rfl⟩
  apply Nat.eq_of_testBit_eq
  intro i
  rw [Nat.testBit_mod_two_pow, Nat.testBit_mod_two_pow, Nat.testBit_shiftRight,
    Nat.testBit_shiftRight]
  by_cases hi : i < 16
  · rw [hbits (48 + i) (by omega) (by omega)]
  · simp [hi]

/-- C16, on two fingerprints that differ in their lowest bit only. -/
theorem Similar_high_bytes_witness :
    (EudexHash.mk 0x0300000000140114).Similar ⟨0x0300000000140115⟩ = true ∧
      ((∀ k, 48 ≤ k → k < 64 →
          (0x0300000000140114 : Nat).testBit k = (0x0300000000140115 : Nat).testBit k) ∧
        (0x0300000000140114 >>> 48) % 2 ^ 16 = (0x0300000000140115 >>> 48) % 2 ^ 16 ∧
        weights.getD 6 0 = 21 ∧ weights.getD 7 0 = 34) :=
  ⟨by decide, Similar_high_bytes ⟨0x0300000000140114⟩ ⟨0x0300000000140115⟩ (by decide)⟩

theorem testBit_eq_of_sum_zero (a b k : Nat) (h : weightedBitSum a b = 0) (hk : k < 64) :
    a.testBit k = b.testBit k := by
  have h1 := xor_bit_le_weightedBitSum a b k hk
  have h2 := weights_pos k hk
  have h3 : (a ^^^ b).testBit k = false := by
    cases hx : (a ^^^ b).testBit k with
    | false => rfl
    | true =>
      rw [hx] at h1
      simp only [Bool.toNat_true, Nat.one_mul] at h1
      omega
  rw [Nat.testBit_xor] at h3
  cases ha : a.testBit k <;> cases hb : b.testBit k <;> simp [ha, hb] at h3 <;> rfl

theorem OnesCount64_le (x : Nat) : OnesCount64 x ≤ 64 := by
  unfold OnesCount64
  exact le_trans (List.length_filter_le _ _) (by simp)

theorem testBit_eq_of_OnesCount64_zero (a b k : Nat) (h : OnesCount64 (a ^^^ b) = 0)
    (hk : k < 64) : a.testBit k = b.testBit k := by
  unfold OnesCount64 at h
  have hnil := List.length_eq_zero.mp h
  have h3 : (a ^^^ b).testBit k = false := by
    have := List.filter_eq_nil_iff.mp hnil k (List.mem_range.mpr hk)
    simpa using this
  rw [Nat.testBit_xor] at h3
  cases ha : a.testBit k <;> cases hb : b.testBit k <;> simp [ha, hb] at h3 <;> rfl

/-- Two `uint64` values that agree on bits 0..63 are equal. -/
theorem eq_of_low_bits (a b : Nat) (ha : a < 2 ^ 64) (hb : b < 2 ^ 64)
    (h : ∀ k, k < 64 → a.testBit k = b.testBit k) : a = b := by
  apply Nat.eq_of_testBit_eq
  intro k
  by_cases hk : k < 64
  · exact h k hk
  · have hpow : 2 ^ 64 ≤ 2 ^ k := Nat.pow_le_pow_right (by norm_num) (Nat.not_lt.mp hk)
    rw [Nat.testBit_lt_two_pow (lt_of_lt_of_le ha hpow),
      Nat.testBit_lt_two_pow (lt_of_lt_of_le hb hpow)]

/-- C18: the distances separate fingerprints. For all fingerprints `a` and
`b` (64-bit values), `a.Dist b = 0` implies `a = b`, and likewise
`a.HammingDist b = 0` implies `a = b`. -/
theorem Dist_eq_zero_imp_eq (a b : EudexHash) (ha : a.h < 2 ^ 64) (hb : b.h < 2 ^ 64)
    (h : a.Dist b = 0 ∨ a.HammingDist b = 0) : a = b := by
  have hbits : ∀ k, k < 64 → a.h.testBit k = b.h.testBit k := by
    rcases h with h | h
    · rw [Dist_eq_sum] at h
      exact fun k hk => testBit_eq_of_sum_zero a.h b.h k h hk
    · have hle := OnesCount64_le (a.h ^^^ b.h)
      have h0 : OnesCount64 (a.h ^^^ b.h) = 0 := by
        simp only [EudexHash.HammingDist, EudexHash.Sub, toU32] at h
        omega
      exact fun k hk => testBit_eq_of_OnesCount64_zero a.h b.h k h0 hk
  have heq := eq_of_low_bits a.h b.h ha hb hbits
  cases a
  cases b
  simp only at heq
  rw [heq]

/-- C18, on the fingerprint of "jesus" compared with itself. -/
theorem Dist_eq_zero_imp_eq_witness :
    ((0x0300000000140114 : Nat) < 2 ^ 64 ∧ (0x0300000000140114 : Nat) < 2 ^ 64 ∧
        ((EudexHash.mk 0x0300000000140114).Dist ⟨0x0300000000140114⟩ = 0 ∨
          (EudexHash.mk 0x0300000000140114).HammingDist ⟨0x0300000000140114⟩ = 0)) ∧
      EudexHash.mk 0x0300000000140114 = ⟨0x0300000000140114⟩ :=
  ⟨by decide, Dist_eq_zero_imp_eq ⟨0x0300000000140114⟩ ⟨0x0300000000140114⟩
    (by decide) (by decide) (Or.inl (by decide))⟩

/-! ## The low byte of the accumulator -/

theorem retainedPhones_nil (res n : Nat) : retainedPhones [] res n = [] := rfl

theorem retainedPhones_cons (c : Byte) (cs : List Byte) (res n : Nat) :
    retainedPhones (c :: cs) res n =
      if n < 8 then
        match phoneOf c with
        | some x =>
          if (res &&& 0xFE) ≠ (x &&& 0xFE) then
            x :: retainedPhones cs (retain res n x).1 (retain res n x).2
          else
            retainedPhones cs res n
        | none => retainedPhones cs res n
      else [] := rfl

set_option maxRecDepth 100000 in
theorem phoneOf_getD_lt (c : Byte) : (phoneOf c).getD 0 < 256 := by
  revert c
  decide

theorem phoneOf_lt (c : Byte) (x : Nat) (h : phoneOf c = some x) : x < 256 := by
  have h1 := phoneOf_getD_lt c
  rw [h] at h1
  exact h1

/-- Appending a phone leaves it in the low byte of the accumulator. -/
theorem append_mod (res x : Nat) (hx : x < 256) :
    (((res <<< 8) % 2 ^ 64) ||| x) % 256 = x := by
  apply Nat.eq_of_testBit_eq
  intro i
  have h256 : (256 : Nat) = 2 ^ 8 := by norm_num
  rw [h256, Nat.testBit_mod_two_pow, Nat.testBit_or, Nat.testBit_mod_two_pow,
    Nat.testBit_shiftLeft]
  by_cases hi : i < 8
  · have h8 : ¬ (i ≥ 8) := by omega
    simp [hi, h8]
  · have hlt : x < 2 ^ i :=
      lt_of_lt_of_le (by omega) (Nat.pow_le_pow_right (by norm_num) (Nat.not_lt.mp hi))
    simp [hi, Nat.testBit_lt_two_pow hlt]

/-- The mask `0xFE` reads the low byte only. -/
theorem and_mask_mod (r : Nat) : r &&& 0xFE = (r % 256) &&& 0xFE := by
  apply Nat.eq_of_testBit_eq
  intro i
  have h256 : (256 : Nat) = 2 ^ 8 := by norm_num
  rw [Nat.testBit_and, Nat.testBit_and, h256, Nat.testBit_mod_two_pow]
  by_cases hi : i < 8
  · simp [hi]
  · have hlt : (0xFE : Nat) < 2 ^ i :=
      lt_of_lt_of_le (by norm_num) (Nat.pow_le_pow_right (by norm_num) (Nat.not_lt.mp hi))
    simp [Nat.testBit_lt_two_pow hlt]

theorem retain_of_ne (res n x : Nat) (h : (res &&& 0xFE) ≠ (x &&& 0xFE)) :
    retain res n x = (((res <<< 8) % 2 ^ 64) ||| x, n + 1) := by
  unfold retain
  rw [if_pos h]

theorem scan_of_retained_nil (cs : List Byte) (res n : Nat)
    (h : retainedPhones cs res n = []) : scan cs res n = res := by
  induction cs generalizing res n with
  | nil => rfl
  | cons c cs ih =>
    rw [retainedPhones_cons] at h
    rw [scan_cons]
    by_cases hn : n < 8
    · rw [if_pos hn] at h
      rw [if_pos hn]
      cases hp : phoneOf c with
      | none =>
        rw [hp] at h
        exact ih res n h
      | some x =>
        rw [hp] at h
        simp only at h ⊢
        by_cases hne : (res &&& 0xFE) ≠ (x &&& 0xFE)
        · rw [if_pos hne] at h
          exact absurd h (List.cons_ne_nil _ _)
        · rw [if_neg hne] at h
          rw [retain_of_eq res n x (not_not.mp hne)]
          exact ih res n h
    · rw [if_neg hn]

/-- Invariant of the loop: once a phone has been retained, the low byte of
the accumulator is the phone retained last. -/
theorem scan_low_byte (cs : List Byte) (res n x : Nat)
    (h : (retainedPhones cs res n).getLast? = some x) : scan cs res n % 256 = x := by
  induction cs generalizing res n with
  | nil => simp [retainedPhones_nil] at h
  | cons c cs ih =>
    rw [retainedPhones_cons] at h
    rw [scan_cons]
    by_cases hn : n < 8
    · rw [if_pos hn] at h
      rw [if_pos hn]
      cases hp : phoneOf c with
      | none =>
        rw [hp] at h
        exact ih res n h
      | some y =>
        rw [hp] at h
        simp only at h ⊢
        by_cases hne : (res &&& 0xFE) ≠ (y &&& 0xFE)
        · rw [if_pos hne] at h
          cases hrest : retainedPhones cs (retain res n y).1 (retain res n y).2 with
          | nil =>
            rw [hrest] at h
            have hxy : y = x := by simpa using h
            rw [scan_of_retained_nil _ _ _ hrest, retain_of_ne res n y hne, ← hxy]
            exact append_mod res y (phoneOf_lt c y hp)
          | cons z zs =>
            rw [hrest, List.getLast?_cons_cons] at h
            rw [← hrest] at h
            exact ih _ _ h
        · rw [if_neg hne] at h
          rw [retain_of_eq res n y (not_not.mp hne)]
          exact ih res n h
    · rw [if_neg hn] at h
      simp at h

/-- Three successive phones of which the first is retained, the second
differs from the first on bits 1..7 and the third agrees with the first on
them: the counter advances by three. -/
theorem retain_three (res n x1 x2 x3 : Nat) (h1 : (res &&& 0xFE) ≠ (x1 &&& 0xFE))
    (h12 : (x1 &&& 0xFE) ≠ (x2 &&& 0xFE)) (h13 : x1 &&& 0xFE = x3 &&& 0xFE) :
    (retain (retain (retain res n x1).1 (retain res n x1).2 x2).1
      (retain (retain res n x1).1 (retain res n x1).2 x2).2 x3).2 = n + 3 := by
  have e1 : (retain res n x1).2 = n + 1 := by rw [retain_of_ne res n x1 h1]
  have l1 : (retain res n x1).1 &&& 0xFE = x1 &&& 0xFE := retain_low res n x1
  have n2 : ((retain res n x1).1 &&& 0xFE) ≠ (x2 &&& 0xFE) := by rw [l1]; exact h12
  have e2 : (retain (retain res n x1).1 (retain res n x1).2 x2).2 = n + 2 := by
    rw [retain_of_ne _ _ x2 n2, e1]
  have l2 : (retain (retain res n x1).1 (retain res n x1).2 x2).1 &&& 0xFE = x2 &&& 0xFE :=
    retain_low _ _ x2
  have n3 : ((retain (retain res n x1).1 (retain res n x1).2 x2).1 &&& 0xFE) ≠
      (x3 &&& 0xFE) := by
    rw [l2, ← h13]
    exact fun h => h12 h.symm
  rw [retain_of_ne _ _ x3 n3, e2]

theorem retainedPhones_of_full (cs : List Byte) (res n : Nat) (h : 8 ≤ n) :
    retainedPhones cs res n = [] := by
  cases cs with
  | nil => rfl
  | cons c cs => rw [retainedPhones_cons, if_neg (Nat.not_lt.mpr h)]

/-- A byte whose phone passes the deduplication test while the guard holds:
the phone is appended to the accumulator and recorded. -/
theorem scan_retained_step (c : Byte) (q : List Byte) (res n x : Nat) (hn : n < 8)
    (hp : phoneOf c = some x) (hne : (res &&& 0xFE) ≠ (x &&& 0xFE)) :
    scan (c :: q) res n = scan q (((res <<< 8) % 2 ^ 64) ||| x) (n + 1) ∧
      retainedPhones (c :: q) res n =
        x :: retainedPhones q (((res <<< 8) % 2 ^ 64) ||| x) (n + 1) := by
  refine ⟨?_, ?_⟩
  · rw [scan_cons, if_pos hn, hp]
    simp only [retain_of_ne res n x hne]
  · rw [retainedPhones_cons, if_pos hn, hp]
    simp only [if_pos hne, retain_of_ne res n x hne]

theorem retainedPhones_skip (c : Byte) (cs : List Byte) (res n : Nat)
    (hc : phoneOf c = none) :
    retainedPhones (c :: cs) res n = retainedPhones cs res n := by
  rw [retainedPhones_cons, hc]
  by_cases hn : n < 8
  · rw [if_pos hn]
  · rw [if_neg hn, retainedPhones_of_full _ _ _ (Nat.not_lt.mp hn)]

/-- Bytes without a phone in front of `q` change neither the accumulator nor
the phones retained. -/
theorem scan_skipped_prefix (g q : List Byte) (res n : Nat)
    (hg : ∀ c ∈ g, phoneOf c = none) :
    scan (g ++ q) res n = scan q res n ∧
      retainedPhones (g ++ q) res n = retainedPhones q res n := by
  induction g with
  | nil => exact ⟨rfl, rfl⟩
  | cons c g ih =>
    have hc : phoneOf c = none := hg c (List.mem_cons_self c g)
    have ih2 := ih (fun d hd => hg d (List.mem_cons_of_mem c hd))
    rw [List.cons_append, scan_skip _ _ _ _ hc, retainedPhones_skip _ _ _ _ hc]
    exact ih2

/-- The state of the loop after the bytes `p`: the accumulator is
`scan p res n` and the counter has advanced by the number of phones retained
over `p`; the loop goes on over `q` from that state. -/
theorem scan_append_state (p q : List Byte) (res n : Nat) :
    scan (p ++ q) res n =
        scan q (scan p res n) (n + (retainedPhones p res n).length) ∧
      retainedPhones (p ++ q) res n =
        retainedPhones p res n ++
          retainedPhones q (scan p res n) (n + (retainedPhones p res n).length) := by
  induction p generalizing res n with
  | nil => exact ⟨rfl, rfl⟩
  | cons c p ih =>
    by_cases hn : n < 8
    · cases hp : phoneOf c with
      | none =>
        rw [List.cons_append, scan_skip _ _ _ _ hp, retainedPhones_skip _ _ _ _ hp,
          scan_skip _ _ _ _ hp, retainedPhones_skip _ _ _ _ hp]
        exact ih res n
      | some x =>
        by_cases hne : (res &&& 0xFE) ≠ (x &&& 0xFE)
        · have h1 := scan_retained_step c (p ++ q) res n x hn hp hne
          have h2 := scan_retained_step c p res n x hn hp hne
          have h3 := ih (((res <<< 8) % 2 ^ 64) ||| x) (n + 1)
          have hlen : n + (x :: retainedPhones p (((res <<< 8) % 2 ^ 64) ||| x)
              (n + 1)).length =
              n + 1 + (retainedPhones p (((res <<< 8) % 2 ^ 64) ||| x) (n + 1)).length := by
            rw [List.length_cons]
            omega
          rw [List.cons_append, h1.1, h1.2, h2.1, h2.2, hlen, h3.1, h3.2]
          exact ⟨rfl, rfl⟩
        · have heq : res &&& 0xFE = x &&& 0xFE := not_not.mp hne
          have hs : ∀ l : List Byte, scan (c :: l) res n = scan l res n := by
            intro l
            rw [scan_cons, if_pos hn, hp]
            simp only [retain_of_eq res n x heq]
          have hr : ∀ l : List Byte,
              retainedPhones (c :: l) res n = retainedPhones l res n := by
            intro l
            rw [retainedPhones_cons, if_pos hn, hp]
            simp only [if_neg hne]
          rw [List.cons_append, hs, hr, hs, hr]
          exact ih res n
    · have h8 : 8 ≤ n := Nat.not_lt.mp hn
      rw [scan_of_full _ _ _ h8, scan_of_full _ _ _ h8, retainedPhones_of_full _ _ _ h8,
        retainedPhones_of_full _ _ _ h8]
      simp only [List.length_nil, Nat.add_zero, List.nil_append]
      rw [scan_of_full _ _ _ h8, retainedPhones_of_full _ _ _ h8]
      exact ⟨rfl, rfl⟩

/-- Three successive phones read by the loop from the state `(res, n)`, with
bytes without a phone between them: when the guard holds at the third, the
first passes the test, the second differs from the first on bits 1..7 and the
third agrees with the first on them, all three are appended. -/
theorem scan_three_retained (c1 c2 c3 : Byte) (g1 g2 t : List Byte)
    (res n x1 x2 x3 : Nat) (hn : n + 2 < 8)
    (h1 : phoneOf c1 = some x1) (h2 : phoneOf c2 = some x2) (h3 : phoneOf c3 = some x3)
    (hg1 : ∀ c ∈ g1, phoneOf c = none) (hg2 : ∀ c ∈ g2, phoneOf c = none)
    (hfirst : (res &&& 0xFE) ≠ (x1 &&& 0xFE))
    (h12 : (x1 &&& 0xFE) ≠ (x2 &&& 0xFE)) (h13 : x1 &&& 0xFE = x3 &&& 0xFE) :
    scan (c1 :: (g1 ++ c2 :: (g2 ++ c3 :: t))) res n =
        scan t (((((((res <<< 8) % 2 ^ 64) ||| x1) <<< 8) % 2 ^ 64 ||| x2) <<< 8) % 2 ^ 64
          ||| x3) (n + 3) ∧
      retainedPhones (c1 :: (g1 ++ c2 :: (g2 ++ c3 :: t))) res n =
        x1 :: x2 :: x3 :: retainedPhones t
          (((((((res <<< 8) % 2 ^ 64) ||| x1) <<< 8) % 2 ^ 64 ||| x2) <<< 8) % 2 ^ 64
            ||| x3) (n + 3) := by
  have ne2 : ((((res <<< 8) % 2 ^ 64) ||| x1) &&& 0xFE) ≠ (x2 &&& 0xFE) := by
    rw [append_low]
    exact h12
  have ne3 : ((((((res <<< 8) % 2 ^ 64) ||| x1) <<< 8) % 2 ^ 64 ||| x2) &&& 0xFE) ≠
      (x3 &&& 0xFE) := by
    rw [append_low, ← h13]
    exact fun h => h12 h.symm
  have s1 := scan_retained_step c1 (g1 ++ c2 :: (g2 ++ c3 :: t)) res n x1 (by omega) h1 hfirst
  have k1 := scan_skipped_prefix g1 (c2 :: (g2 ++ c3 :: t))
    (((res <<< 8) % 2 ^ 64) ||| x1) (n + 1) hg1
  have s2 := scan_retained_step c2 (g2 ++ c3 :: t) (((res <<< 8) % 2 ^ 64) ||| x1) (n + 1)
    x2 (by omega) h2 ne2
  have k2 := scan_skipped_prefix g2 (c3 :: t)
    (((((res <<< 8) % 2 ^ 64) ||| x1) <<< 8) % 2 ^ 64 ||| x2) (n + 1 + 1) hg2
  have s3 := scan_retained_step c3 t
    (((((res <<< 8) % 2 ^ 64) ||| x1) <<< 8) % 2 ^ 64 ||| x2) (n + 1 + 1) x3 (by omega) h3 ne3
  rw [s1.1, s1.2, k1.1, k1.2, s2.1, s2.2, k2.1, k2.2, s3.1, s3.2]
  exact ⟨rfl, rfl⟩

/-- C14 (the claim fails as stated). Three successive phones of which the
first and the third agree on bits 1..7 and the second does not are not always
all retained. In "ximu" the phones of `i m u` are `0x01 0x02 0x01`, but the
`i` is compared with the initial accumulator 0 and dropped: the loop retains
`0x02 0x01` only, and "ximu" hashes like "xmu". In "xbcbcbclmr" the phones of
`l m r` are `0xA0 0x02 0xA1`, but `m` is the eighth phone retained and the
loop stops before `r`: "xbcbcbclmr" hashes like "xbcbcbclm". -/
theorem three_phones_not_all_retained :
    (phoneOf 105 = some 0x01 ∧ phoneOf 109 = some 0x02 ∧ phoneOf 117 = some 0x01 ∧
        (0x01 : Nat) &&& 0xFE = 0x01 &&& 0xFE ∧ ((0x01 : Nat) &&& 0xFE) ≠ (0x02 &&& 0xFE) ∧
        retainedPhones (ascii "imu") 0 0 = [0x02, 0x01] ∧
        Eudex (ascii "ximu") = Eudex (ascii "xmu")) ∧
      (phoneOf 108 = some 0xA0 ∧ phoneOf 109 = some 0x02 ∧ phoneOf 114 = some 0xA1 ∧
        (0xA0 : Nat) &&& 0xFE = 0xA1 &&& 0xFE ∧ ((0xA0 : Nat) &&& 0xFE) ≠ (0x02 &&& 0xFE) ∧
        retainedPhones (ascii "bcbcbclmr") 0 0 =
          [0x48, 0x0C, 0x48, 0x0C, 0x48, 0x0C, 0xA0, 0x02] ∧
        Eudex (ascii "xbcbcbclmr") = Eudex (ascii "xbcbcbclm")) := by
  decide

/-- C14 (as amended): loop invariant of `Eudex`. For every string `s`, the
loop returns an accumulator whose low byte is the phone retained last, if any
was retained (every state of the loop is the final state on a prefix of the
string), so the deduplication test `(res & 0xFE) != (x & 0xFE)` compares the
candidate with the phone retained last, never with an older one. And wherever
`s` holds three successive phones (bytes `c1 c2 c3`, with only bytes without a
phone between them) of which the first and the third agree on bits 1..7 and
the second does not, all three are retained by the loop, provided the first
differs on bits 1..7 from the accumulator `r` that the loop has when it reads
it and the guard `n < 8` still holds when the third is read: the phones
retained over `s` are those retained before, then the three, then those of
the rest, and the loop run up to `c3` returns `r` with the three appended. -/
theorem loop_low_byte_invariant (s : GoString) :
    (∃ r, EudexLoop s s.length 0 0 1 = some r ∧
      ∀ x, (retainedPhones (s.drop 1) 0 0).getLast? = some x →
        r % 256 = x ∧
          ∀ y, ((r &&& 0xFE) ≠ (y &&& 0xFE) ↔ (x &&& 0xFE) ≠ (y &&& 0xFE))) ∧
      (∀ (c0 c1 c2 c3 : Byte) (p g1 g2 t : List Byte) (r x1 x2 x3 : Nat),
        s = c0 :: (p ++ c1 :: (g1 ++ c2 :: (g2 ++ c3 :: t))) →
        EudexLoop (c0 :: p) (c0 :: p).length 0 0 1 = some r →
        (retainedPhones p 0 0).length + 2 < 8 →
        phoneOf c1 = some x1 → phoneOf c2 = some x2 → phoneOf c3 = some x3 →
        (∀ c ∈ g1, phoneOf c = none) → (∀ c ∈ g2, phoneOf c = none) →
        (r &&& 0xFE) ≠ (x1 &&& 0xFE) →
        (x1 &&& 0xFE) ≠ (x2 &&& 0xFE) → x1 &&& 0xFE = x3 &&& 0xFE →
        (∃ rest, retainedPhones (s.drop 1) 0 0 =
            retainedPhones p 0 0 ++ x1 :: x2 :: x3 :: rest) ∧
          EudexLoop (c0 :: (p ++ c1 :: (g1 ++ c2 :: (g2 ++ [c3]))))
              (c0 :: (p ++ c1 :: (g1 ++ c2 :: (g2 ++ [c3])))).length 0 0 1 =
            some (((((((r <<< 8) % 2 ^ 64) ||| x1) <<< 8) % 2 ^ 64 ||| x2) <<< 8) % 2 ^ 64
              ||| x3)) ∧
      retainedPhones (ascii "lmr") 0 0 = [0xA0, 0x02, 0xA1] ∧
      Eudex (ascii "xlmr") = some ⟨0x4200000000A002A1⟩ := by
  refine ⟨⟨scan (s.drop 1) 0 0, EudexLoop_eq_scan s s.length 0 0 1 (by omega), ?_⟩,
    ?_, by decide, by decide⟩
  · intro x hx
    have hlow := scan_low_byte (s.drop 1) 0 0 x hx
    refine ⟨hlow, fun y => ?_⟩
    rw [and_mask_mod (scan (s.drop 1) 0 0), hlow]
  · intro c0 c1 c2 c3 p g1 g2 t r x1 x2 x3 hs hr hn h1 h2 h3 hg1 hg2 hfirst h12 h13
    have hr2 : r = scan p 0 0 := by
      rw [EudexLoop_eq_scan _ _ _ _ _ (by omega)] at hr
      exact (Option.some.inj hr).symm
    subst hr2
    subst hs
    refine ⟨?_, ?_⟩
    · have ha := scan_append_state p (c1 :: (g1 ++ c2 :: (g2 ++ c3 :: t))) 0 0
      have h3r := scan_three_retained c1 c2 c3 g1 g2 t (scan p 0 0)
        (0 + (retainedPhones p 0 0).length) x1 x2 x3 (by omega) h1 h2 h3 hg1 hg2 hfirst
        h12 h13
      have hd : List.drop 1 (c0 :: (p ++ c1 :: (g1 ++ c2 :: (g2 ++ c3 :: t)))) =
          p ++ c1 :: (g1 ++ c2 :: (g2 ++ c3 :: t)) := rfl
      rw [hd, ha.2, h3r.2]
      exact ⟨_, rfl⟩
    · have ha := scan_append_state p (c1 :: (g1 ++ c2 :: (g2 ++ [c3]))) 0 0
      have h3r := scan_three_retained c1 c2 c3 g1 g2 [] (scan p 0 0)
        (0 + (retainedPhones p 0 0).length) x1 x2 x3 (by omega) h1 h2 h3 hg1 hg2 hfirst
        h12 h13
      rw [EudexLoop_eq_scan _ _ _ _ _ (by omega)]
      show some (scan (p ++ c1 :: (g1 ++ c2 :: (g2 ++ [c3]))) 0 0) = _
      rw [ha.1, h3r.1, scan_nil]

set_option maxRecDepth 100000 in
/-- C14 (as amended), on "xbl-m r": after `b`, the phones of `l m r` are all
retained, `-` and the blank between them having no phone. -/
theorem loop_low_byte_invariant_witness :
    (∃ rest, retainedPhones ((ascii "xbl-m r").drop 1) 0 0 =
        retainedPhones (ascii "b") 0 0 ++ 0xA0 :: 0x02 :: 0xA1 :: rest) ∧
      EudexLoop (120 :: (ascii "b" ++ 108 :: (ascii "-" ++ 109 :: (ascii " " ++ [114]))))
          (120 :: (ascii "b" ++ 108 :: (ascii "-" ++ 109 :: (ascii " " ++ [114])))).length
          0 0 1 =
        some (((((((0x48 <<< 8) % 2 ^ 64) ||| 0xA0) <<< 8) % 2 ^ 64 ||| 0x02) <<< 8) % 2 ^ 64
          ||| 0xA1) :=
  (loop_low_byte_invariant (ascii "xbl-m r")).2.1 120 108 109 114 (ascii "b") (ascii "-")
    (ascii " ") [] 0x48 0xA0 0x02 0xA1 (by decide) (by decide) (by decide) (by decide)
    (by decide) (by decide) (by decide) (by decide) (by decide) (by decide) (by decide)

end eudex
